import Mathlib

/-!
Verification of the lyric-scheduling core of `make_lyrics_video.py`
(function `create_karaoke_video`).  The embedding covers:

* timing reconciliation (source lines 117-129),
* the syllable → word → page segmentation loop (source lines 131-175),
* the per-page highlight scheduling (source lines 181-226).

Python strings are modelled as `List Char`, timestamps as `ℚ`.
The fallible part (indexing `onset_times[-1]` on an empty array raises an
uncaught `IndexError`) is modelled with `Option`.
-/

/-- Source line 138: punctuation that forces a page break. -/
def break_punctuation : List Char := [',', '.', '!', ')', '?']

/-- Source line 148: the `"\n"` marker string appended between lines of a page. -/
def newlineMark : List Char := ['\n']

/-- Python `syllable.endswith('-')` (source line 150). -/
def endsDash (s : List Char) : Bool := s.getLast? = some '-'

/-- Python `syllable.rstrip('-')` (source line 151): drop every trailing hyphen. -/
def rstripDash (s : List Char) : List Char := (s.reverse.dropWhile (· = '-')).reverse

/-- Python `syllable.strip()` (source lines 142-144): drop surrounding whitespace. -/
def pstrip (s : List Char) : List Char :=
  ((s.dropWhile Char.isWhitespace).reverse.dropWhile Char.isWhitespace).reverse

/-- Source lines 141-144: a syllable starts a new line when its stripped form is
non-empty and begins with an upper-case letter or an opening parenthesis. -/
def startsNewLine (s : List Char) : Bool :=
  !(pstrip s).isEmpty &&
    (match (pstrip s).head? with
      | some c => c.isUpper || c = '('
      | none => false)

/-- Source line 161: the completed word ends with break punctuation
(`any(complete_word.endswith(p) for p in break_punctuation)`). -/
def shouldBreak (w : List Char) : Bool :=
  break_punctuation.any (fun p => w.getLast? = some p)

/-- Source lines 117-129: align the onset count with the syllable count.  When
there are fewer onsets than syllables, the code reads `onset_times[-1]` and
appends `np.linspace(last, duration, missing + 1)[1:]`; on an empty onset array
that indexing raises an uncaught `IndexError`, modelled as `none`. -/
def reconcileOnsets (onsets : List ℚ) (syllableCount : ℕ) (duration : ℚ) :
    Option (List ℚ) :=
  if onsets.length < syllableCount then
    match onsets.getLast? with
    | none => none
    | some last =>
      some (onsets ++ (List.range (syllableCount - onsets.length)).map
        (fun j : ℕ => last + ((j : ℚ) + 1) *
          ((duration - last) / ((syllableCount - onsets.length : ℕ) : ℚ))))
  else
    some onsets

/-- The mutable accumulators of the segmentation loop (source lines 132-135):
finished pages, the page being filled, the pending word buffer, and the start
timestamp recorded for each closed word. -/
structure SegState where
  pages : List (List (List Char))
  current_page : List (List Char)
  current_word : List (List Char)
  word_timings : List ℚ
deriving DecidableEq

/-- Source lines 146-148: append the `"\n"` marker when the syllable starts a
new line, the current page already has content, and no word is being built. -/
def maybeNewline (s : SegState) (syl : List Char) : SegState :=
  if startsNewLine syl && !s.current_page.isEmpty && s.current_word.isEmpty then
    { s with current_page := s.current_page ++ [newlineMark] }
  else s

/-- Source lines 152-172: close the pending word with syllable `syl` at onset
`t`, append it to the current page, and flush the page when the word ends in
break punctuation or the page element count has reached `maxw`. -/
def closeWord (maxw : ℕ) (t : ℚ) (s : SegState) (syl : List Char) : SegState :=
  let complete := (s.current_word ++ [syl]).flatten
  let page := s.current_page ++ [complete]
  let timings := s.word_timings ++ [t]
  if shouldBreak complete then
    if 0 < page.length then
      ⟨s.pages ++ [page], [], [], timings⟩
    else
      ⟨s.pages, page, [], timings⟩
  else if maxw ≤ page.length then
    ⟨s.pages ++ [page], [], [], timings⟩
  else
    ⟨s.pages, page, [], timings⟩

/-- One iteration of the loop at source lines 140-172, for the syllable at
index `i` (so its onset is `onset_times[i]`). -/
def stepSyllable (maxw : ℕ) (onsets : List ℚ) (i : ℕ) (s : SegState)
    (syl : List Char) : SegState :=
  if endsDash syl then
    { maybeNewline s syl with
        current_word := (maybeNewline s syl).current_word ++ [rstripDash syl] }
  else
    closeWord maxw (onsets.getD i 0) (maybeNewline s syl) syl

/-- The loop `for i, syllable in enumerate(syllables)` (source line 140). -/
def segLoop (maxw : ℕ) (onsets : List ℚ) : ℕ → SegState → List (List Char) → SegState
  | _, s, [] => s
  | i, s, syl :: rest => segLoop maxw onsets (i + 1) (stepSyllable maxw onsets i s syl) rest

/-- The empty accumulators of source lines 132-135. -/
def initState : SegState := ⟨[], [], [], []⟩

/-- Running the whole segmentation loop from the initial state. -/
def segmentRun (maxw : ℕ) (onsets : List ℚ) (sylls : List (List Char)) : SegState :=
  segLoop maxw onsets 0 initState sylls

/-- Source lines 131-175: the emitted page list, flushing a non-empty final page. -/
def makePages (maxw : ℕ) (onsets : List ℚ) (sylls : List (List Char)) :
    List (List (List Char)) :=
  if !(segmentRun maxw onsets sylls).current_page.isEmpty then
    (segmentRun maxw onsets sylls).pages ++ [(segmentRun maxw onsets sylls).current_page]
  else
    (segmentRun maxw onsets sylls).pages

/-- The per-word start timestamps collected by the loop (source line 154). -/
def wordTimings (maxw : ℕ) (onsets : List ℚ) (sylls : List (List Char)) : List ℚ :=
  (segmentRun maxw onsets sylls).word_timings

/-- Source line 186: the actual words of a page, excluding `"\n"` markers. -/
def actualWords (page : List (List Char)) : List (List Char) :=
  page.filter (fun w => w ≠ newlineMark)

/-- All completed words reachable in a state: finished pages then the page in
progress, markers excluded. -/
def wordsOf (s : SegState) : List (List Char) :=
  (s.pages.flatten ++ s.current_page).filter (fun w => w ≠ newlineMark)

/-- Source lines 150-158 in isolation: the word assembler.  `asmAux onsets i buf
rest` consumes the remaining syllables `rest` (the syllable at the head having
global index `i`) with pending buffer `buf`, and returns the closed words
paired with the onset of their closing syllable. -/
def asmAux (onsets : List ℚ) : ℕ → List (List Char) → List (List Char) →
    List (List Char × ℚ)
  | _, _, [] => []
  | i, buf, syl :: rest =>
    if endsDash syl then
      asmAux onsets (i + 1) (buf ++ [rstripDash syl]) rest
    else
      ((buf ++ [syl]).flatten, onsets.getD i 0) :: asmAux onsets (i + 1) [] rest

/-- The word assembler without timings (the words produced do not depend on the
onset sequence). -/
def assembleWords : List (List Char) → List (List Char) → List (List Char)
  | _, [] => []
  | buf, syl :: rest =>
    if endsDash syl then
      assembleWords (buf ++ [rstripDash syl]) rest
    else
      (buf ++ [syl]).flatten :: assembleWords [] rest

/-- Source lines 185-219 for a single page starting at global word index
`word_idx`: the page start time, the page end time (onset of the page's last
word, clamped), and, per actual word, its highlight interval relative to the
page start.  The `takeWhile` models the `break` at source lines 201-202. -/
def pageSchedule (timings : List ℚ) (word_idx : ℕ) (page : List (List Char)) :
    ℚ × ℚ × List (ℚ × ℚ) :=
  let n := (actualWords page).length
  let ps := timings.getD word_idx 0
  let pe := timings.getD (min (word_idx + n - 1) (timings.length - 1)) 0
  (ps, pe,
    ((List.range n).takeWhile (fun k => decide (word_idx + k < timings.length))).map
      (fun k =>
        (timings.getD (word_idx + k) 0 - ps,
          (if word_idx + k < timings.length - 1 then
            timings.getD (word_idx + k + 1) 0
          else pe) - ps)))

/-- Source lines 181-226: schedule every page, threading the running global
word index (`word_idx += len(actual_words)`). -/
def scheduleAux (timings : List ℚ) : ℕ → List (List (List Char)) →
    List (ℚ × ℚ × List (ℚ × ℚ))
  | _, [] => []
  | w, page :: rest =>
    pageSchedule timings w page :: scheduleAux timings (w + (actualWords page).length) rest

/-- The full highlight schedule of a page list. -/
def schedule (timings : List ℚ) (pages : List (List (List Char))) :
    List (ℚ × ℚ × List (ℚ × ℚ)) :=
  scheduleAux timings 0 pages

/-- The scheduling core of `create_karaoke_video` (source lines 108-226):
reconcile the onsets against the syllable count, run the segmentation loop, and
compute the highlight schedule.  `none` models the run aborting with an
uncaught exception before any page is produced. -/
def pipeline (maxw : ℕ) (sylls : List (List Char)) (onsets : List ℚ)
    (duration : ℚ) :
    Option (List (List (List Char)) × List ℚ × List (ℚ × ℚ × List (ℚ × ℚ))) :=
  (reconcileOnsets onsets sylls.length duration).map fun ons =>
    (makePages maxw ons sylls, wordTimings maxw ons sylls,
      schedule (wordTimings maxw ons sylls) (makePages maxw ons sylls))

/-- Modelled from the spec: the fixed-count paging strategy of spec section 4.3
("Fixed-count paging") is not present in `src/` (the source file carries only
the punctuation/line-aware strategy); one fold step appends the word to the
current page and closes the page when its running word count reaches
`wordsPerPage`. -/
def fixedStep (wordsPerPage : ℕ) (acc : List (List α) × List α) (w : α) :
    List (List α) × List α :=
  if wordsPerPage ≤ (acc.2 ++ [w]).length then
    (acc.1 ++ [acc.2 ++ [w]], [])
  else
    (acc.1, acc.2 ++ [w])

/-- Modelled from the spec: run fixed-count paging over a word sequence,
flushing a non-empty final page. -/
def fixedPages (wordsPerPage : ℕ) (ws : List α) : List (List α) :=
  if !(ws.foldl (fixedStep wordsPerPage) ([], [])).2.isEmpty then
    (ws.foldl (fixedStep wordsPerPage) ([], [])).1 ++
      [(ws.foldl (fixedStep wordsPerPage) ([], [])).2]
  else
    (ws.foldl (fixedStep wordsPerPage) ([], [])).1

example : makePages 15 [0, 1] [['a', '.'], ['b']] = [[['a', '.']], [['b']]] := by decide

example : assembleWords [] [['s', 'y', 'l', '-'], ['l', 'a'], ['n']]
    = [['s', 'y', 'l', 'l', 'a'], ['n']] := by decide

example : reconcileOnsets [1] 3 4 = some [1, 5/2, 4] := by
  norm_num [reconcileOnsets, List.range_succ]

example : fixedPages 2 [0, 1, 2, 3, 4] = [[0, 1], [2, 3], [4]] := by decide

/-- Invariant maintained by the segmentation loop for a page-size bound
`maxw ≥ 1` and newline-free tokens: finished pages are non-empty, start with a
word (never the `"\n"` marker), hold at most `maxw` actual words, were flushed
either right after a break-punctuation word or because their element count
reached `maxw`, and contain break-punctuation words only in final position;
the page in progress has strictly fewer than `maxw` actual words, respects the
element-count bound, and contains no break-punctuation word at all. -/
structure SegInv (maxw : ℕ) (s : SegState) : Prop where
  pages_ne : ∀ p ∈ s.pages, p ≠ []
  pages_head : ∀ p ∈ s.pages, p.head? ≠ some newlineMark
  pages_wc : ∀ p ∈ s.pages, (actualWords p).length ≤ maxw
  pages_last : ∀ p ∈ s.pages, shouldBreak (p.getLast?.getD []) = true ∨ maxw ≤ p.length
  pages_inner : ∀ p ∈ s.pages, ∀ w ∈ (actualWords p).dropLast, shouldBreak w = false
  cp_head : s.current_page.head? ≠ some newlineMark
  cp_wc : (actualWords s.current_page).length + 1 ≤ maxw
  cp_len_empty : s.current_word = [] → s.current_page.length + 1 ≤ maxw
  cp_len : s.current_page.length ≤ maxw
  cp_nopunct : ∀ w ∈ actualWords s.current_page, shouldBreak w = false
  buf_nl : ∀ x ∈ s.current_word, ('\n') ∉ x

instance : DecidableEq (List ℚ × List (ℚ × ℚ × List (ℚ × ℚ))) :=
  instDecidableEqProd

instance : DecidableEq (List (List (List Char)) × List ℚ × List (ℚ × ℚ × List (ℚ × ℚ))) :=
  instDecidableEqProd

/-- The global word index of the first word of page `j`: the scheduling loop
at source lines 181-226 advances `word_idx` by each page's actual word count,
so page `j` starts at the sum of the earlier pages' word counts. -/
def pageStartIdx (pages : List (List (List Char))) (j : ℕ) : ℕ :=
  ((pages.take j).map (fun p => (actualWords p).length)).sum

/-- The structural part of the loop invariant, independent of the page-size
bound: finished pages are non-empty and start with a word rather than the
`"\n"` marker, and the word buffer never holds a newline character. -/
structure BasicInv (s : SegState) : Prop where
  pages_ne : ∀ p ∈ s.pages, p ≠ []
  pages_head : ∀ p ∈ s.pages, p.head? ≠ some newlineMark
  cp_head : s.current_page.head? ≠ some newlineMark
  buf_nl : ∀ x ∈ s.current_word, ('\n') ∉ x

/-! ## Basic lemmas about the loop state transformers -/

theorem mem_rstripDash {c : Char} {s : List Char} (h : c ∈ rstripDash s) : c ∈ s := by
  unfold rstripDash at h
  rw [List.mem_reverse] at h
  have := (List.dropWhile_sublist (l := s.reverse) (p := (· = '-'))).subset h
  rwa [List.mem_reverse] at this

theorem maybeNewline_pages (s : SegState) (syl : List Char) :
    (maybeNewline s syl).pages = s.pages := by
  unfold maybeNewline; split <;> rfl

theorem maybeNewline_current_word (s : SegState) (syl : List Char) :
    (maybeNewline s syl).current_word = s.current_word := by
  unfold maybeNewline; split <;> rfl

theorem maybeNewline_word_timings (s : SegState) (syl : List Char) :
    (maybeNewline s syl).word_timings = s.word_timings := by
  unfold maybeNewline; split <;> rfl

theorem actualWords_append (p q : List (List Char)) :
    actualWords (p ++ q) = actualWords p ++ actualWords q := by
  simp [actualWords, List.filter_append]

theorem actualWords_newlineMark : actualWords [newlineMark] = [] := by decide

theorem actualWords_single {w : List Char} (h : w ≠ newlineMark) :
    actualWords [w] = [w] := by
  simp [actualWords, h]

theorem wordsOf_maybeNewline (s : SegState) (syl : List Char) :
    wordsOf (maybeNewline s syl) = wordsOf s := by
  unfold maybeNewline; split
  · show ((s.pages.flatten ++ (s.current_page ++ [newlineMark])).filter
      (fun w => w ≠ newlineMark)) = wordsOf s
    have : actualWords (s.pages.flatten ++ (s.current_page ++ [newlineMark]))
        = actualWords (s.pages.flatten ++ s.current_page) := by
      rw [← List.append_assoc, actualWords_append, actualWords_newlineMark,
        List.append_nil]
    exact this
  · rfl

theorem closeWord_pages_flatten (maxw : ℕ) (t : ℚ) (s : SegState) (syl : List Char) :
    (closeWord maxw t s syl).pages.flatten ++ (closeWord maxw t s syl).current_page
      = s.pages.flatten ++ s.current_page ++ [(s.current_word ++ [syl]).flatten] := by
  simp only [closeWord]
  split_ifs <;> simp [List.flatten_append, List.append_assoc]

theorem closeWord_word_timings (maxw : ℕ) (t : ℚ) (s : SegState) (syl : List Char) :
    (closeWord maxw t s syl).word_timings = s.word_timings ++ [t] := by
  simp only [closeWord]
  split_ifs <;> rfl

theorem closeWord_current_word (maxw : ℕ) (t : ℚ) (s : SegState) (syl : List Char) :
    (closeWord maxw t s syl).current_word = [] := by
  simp only [closeWord]
  split_ifs <;> rfl

theorem wordsOf_closeWord (maxw : ℕ) (t : ℚ) (s : SegState) (syl : List Char)
    (h : (s.current_word ++ [syl]).flatten ≠ newlineMark) :
    wordsOf (closeWord maxw t s syl)
      = wordsOf s ++ [(s.current_word ++ [syl]).flatten] := by
  show actualWords _ = actualWords _ ++ _
  rw [closeWord_pages_flatten, actualWords_append, actualWords_single h]

theorem mem_flatten_of_forall {c : Char} {ls : List (List Char)}
    (h : ∀ x ∈ ls, c ∉ x) : c ∉ ls.flatten := by
  intro hc
  rcases List.mem_flatten.mp hc with ⟨l, hl, hcl⟩
  exact h l hl hcl

theorem complete_ne_newlineMark {buf : List (List Char)} {syl : List Char}
    (hb : ∀ x ∈ buf, ('\n') ∉ x) (hs : ('\n') ∉ syl) :
    (buf ++ [syl]).flatten ≠ newlineMark := by
  intro h
  have : ('\n') ∈ (buf ++ [syl]).flatten := by
    rw [h]; exact List.mem_singleton.mpr rfl
  refine mem_flatten_of_forall ?_ this
  intro x hx
  rcases List.mem_append.mp hx with hx | hx
  · exact hb x hx
  · rw [List.mem_singleton.mp hx]; exact hs

/-! ## The loop produces exactly the assembled words and their timings -/

theorem segLoop_spec (maxw : ℕ) (ons : List ℚ) (sylls : List (List Char)) :
    ∀ (i : ℕ) (s : SegState),
      (∀ x ∈ sylls, ('\n') ∉ x) → (∀ x ∈ s.current_word, ('\n') ∉ x) →
      wordsOf (segLoop maxw ons i s sylls)
          = wordsOf s ++ (asmAux ons i s.current_word sylls).map Prod.fst
        ∧ (segLoop maxw ons i s sylls).word_timings
          = s.word_timings ++ (asmAux ons i s.current_word sylls).map Prod.snd := by
  induction sylls with
  | nil => intro i s _ _; simp [segLoop, asmAux]
  | cons syl rest ih =>
    intro i s hn hb
    have hsyl : ('\n') ∉ syl := hn syl (List.mem_cons_self syl rest)
    have hrest : ∀ x ∈ rest, ('\n') ∉ x := fun x hx => hn x (List.mem_cons_of_mem _ hx)
    rw [segLoop]
    by_cases hd : endsDash syl = true
    · have hstep : stepSyllable maxw ons i s syl
          = { maybeNewline s syl with
              current_word := (maybeNewline s syl).current_word ++ [rstripDash syl] } := by
        unfold stepSyllable; rw [if_pos hd]
      have hb2 : ∀ x ∈ (stepSyllable maxw ons i s syl).current_word, ('\n') ∉ x := by
        rw [hstep, maybeNewline_current_word]
        intro x hx
        rcases List.mem_append.mp hx with hx | hx
        · exact hb x hx
        · rw [List.mem_singleton.mp hx]
          intro hc
          exact hsyl (mem_rstripDash hc)
      obtain ⟨h1, h2⟩ := ih (i + 1) _ hrest hb2
      rw [h1, h2, hstep]
      have e1 : wordsOf { maybeNewline s syl with
          current_word := (maybeNewline s syl).current_word ++ [rstripDash syl] }
          = wordsOf s := wordsOf_maybeNewline s syl
      have e2 : ({ maybeNewline s syl with
          current_word := (maybeNewline s syl).current_word ++ [rstripDash syl] } :
            SegState).word_timings = s.word_timings := maybeNewline_word_timings s syl
      have e3 : ({ maybeNewline s syl with
          current_word := (maybeNewline s syl).current_word ++ [rstripDash syl] } :
            SegState).current_word = s.current_word ++ [rstripDash syl] := by
        rw [maybeNewline_current_word]
      rw [e1, e2, e3]
      constructor <;> · rw [asmAux, if_pos hd]
    · have hd' : endsDash syl = false := Bool.eq_false_iff.mpr hd
      have hstep : stepSyllable maxw ons i s syl
          = closeWord maxw (ons.getD i 0) (maybeNewline s syl) syl := by
        unfold stepSyllable; rw [if_neg hd]
      have hcw : (maybeNewline s syl).current_word = s.current_word :=
        maybeNewline_current_word s syl
      have hne : ((maybeNewline s syl).current_word ++ [syl]).flatten ≠ newlineMark := by
        rw [hcw]; exact complete_ne_newlineMark hb hsyl
      have hb2 : ∀ x ∈ (stepSyllable maxw ons i s syl).current_word, ('\n') ∉ x := by
        rw [hstep, closeWord_current_word]
        intro x hx; cases hx
      obtain ⟨h1, h2⟩ := ih (i + 1) _ hrest hb2
      rw [h1, h2, hstep, closeWord_current_word, wordsOf_closeWord _ _ _ _ hne,
        closeWord_word_timings, wordsOf_maybeNewline, maybeNewline_word_timings, hcw]
      constructor <;>
        · rw [asmAux, if_neg hd]
          simp [List.append_assoc]


theorem wordsOf_eq (s : SegState) :
    wordsOf s = actualWords (s.pages.flatten ++ s.current_page) := rfl

theorem segmentRun_wordsOf (maxw : ℕ) (ons : List ℚ) (sylls : List (List Char))
    (hn : ∀ x ∈ sylls, ('\n') ∉ x) :
    wordsOf (segmentRun maxw ons sylls) = (asmAux ons 0 [] sylls).map Prod.fst := by
  have h := (segLoop_spec maxw ons sylls 0 initState hn (by intro x hx; cases hx)).1
  simpa [segmentRun, wordsOf, initState] using h

theorem segmentRun_word_timings (maxw : ℕ) (ons : List ℚ) (sylls : List (List Char))
    (hn : ∀ x ∈ sylls, ('\n') ∉ x) :
    (segmentRun maxw ons sylls).word_timings = (asmAux ons 0 [] sylls).map Prod.snd := by
  have h := (segLoop_spec maxw ons sylls 0 initState hn (by intro x hx; cases hx)).2
  simpa [segmentRun, initState] using h

theorem asmAux_map_fst (ons : List ℚ) (sylls : List (List Char)) :
    ∀ (buf : List (List Char)) (i : ℕ),
      (asmAux ons i buf sylls).map Prod.fst = assembleWords buf sylls := by
  induction sylls with
  | nil => intro buf i; rfl
  | cons syl rest ih =>
    intro buf i
    by_cases hd : endsDash syl = true
    · simp only [asmAux, assembleWords, if_pos hd]
      exact ih _ _
    · simp only [asmAux, assembleWords, if_neg hd, List.map_cons]
      rw [ih]

theorem actualWords_flatten (ps : List (List (List Char))) :
    (ps.map actualWords).flatten = actualWords ps.flatten := by
  induction ps with
  | nil => rfl
  | cons p rest ih => simp [List.flatten_cons, actualWords_append, ih]

theorem makePages_words (maxw : ℕ) (ons : List ℚ) (sylls : List (List Char))
    (hn : ∀ x ∈ sylls, ('\n') ∉ x) :
    ((makePages maxw ons sylls).map actualWords).flatten = assembleWords [] sylls := by
  have h := segmentRun_wordsOf maxw ons sylls hn
  rw [asmAux_map_fst, wordsOf_eq] at h
  rw [actualWords_flatten]
  unfold makePages
  split
  · rw [List.flatten_append, List.flatten_cons, List.flatten_nil, List.append_nil]
    exact h
  · rename_i hcp
    have : (segmentRun maxw ons sylls).current_page = [] := by
      rcases h' : (segmentRun maxw ons sylls).current_page with _ | ⟨a, l⟩
      · rfl
      · rw [h'] at hcp; simp at hcp
    rw [this, List.append_nil] at h
    exact h

/-- C1: for every token/onset input (tokens free of the newline character, as
guaranteed by the line-stripping reader at source line 112), the pages produced
by the segmentation loop partition the assembled word sequence: concatenating
the pages' actual words in order reproduces exactly the assembled word
sequence, so every assembled word lies on exactly one page, with no gaps,
duplicates, or overlaps. -/
theorem pages_partition_assembledWords (maxw : ℕ) (ons : List ℚ)
    (sylls : List (List Char)) (hn : ∀ x ∈ sylls, ('\n') ∉ x) :
    ((makePages maxw ons sylls).map actualWords).flatten = assembleWords [] sylls :=
  makePages_words maxw ons sylls hn

/-- Witness for C1 at a concrete input. -/
theorem pages_partition_assembledWords_witness :
    ((makePages 2 [0, 1, 2] [['a'], ['B'], ['c', '-'], ['d']]).map actualWords).flatten
      = assembleWords [] [['a'], ['B'], ['c', '-'], ['d']] :=
  pages_partition_assembledWords 2 [0, 1, 2] [['a'], ['B'], ['c', '-'], ['d']] (by decide)

/-! ## Preservation of the segmentation invariant -/

theorem head?_concat {α : Type} (l : List α) (x : α) :
    (l ++ [x]).head? = some (l.head?.getD x) := by
  cases l <;> rfl

theorem maybeNewline_cp (s : SegState) (syl : List Char) :
    (maybeNewline s syl).current_page = s.current_page
    ∨ ((maybeNewline s syl).current_page = s.current_page ++ [newlineMark]
        ∧ s.current_page ≠ [] ∧ s.current_word = []) := by
  unfold maybeNewline; split
  · rename_i h
    right
    refine ⟨rfl, ?_, ?_⟩
    · intro hcp; rw [hcp] at h; simp at h
    · rcases h' : s.current_word with _ | ⟨a, l⟩
      · rfl
      · rw [h'] at h; simp at h
  · left; rfl

theorem SegInv_closeWord (maxw : ℕ) (t : ℚ) (s1 : SegState) (syl : List Char)
    (hmax : 1 ≤ maxw) (hsyl : ('\n') ∉ syl)
    (hpne : ∀ p ∈ s1.pages, p ≠ [])
    (hph : ∀ p ∈ s1.pages, p.head? ≠ some newlineMark)
    (hpwc : ∀ p ∈ s1.pages, (actualWords p).length ≤ maxw)
    (hpl : ∀ p ∈ s1.pages, shouldBreak (p.getLast?.getD []) = true ∨ maxw ≤ p.length)
    (hpi : ∀ p ∈ s1.pages, ∀ w ∈ (actualWords p).dropLast, shouldBreak w = false)
    (hch : s1.current_page.head? ≠ some newlineMark)
    (hcwc : (actualWords s1.current_page).length + 1 ≤ maxw)
    (hcnp : ∀ w ∈ actualWords s1.current_page, shouldBreak w = false)
    (hbnl : ∀ x ∈ s1.current_word, ('\n') ∉ x) :
    SegInv maxw (closeWord maxw t s1 syl) := by
  have hcomp : (s1.current_word ++ [syl]).flatten ≠ newlineMark :=
    complete_ne_newlineMark hbnl hsyl
  have hpage_actual : actualWords (s1.current_page ++ [(s1.current_word ++ [syl]).flatten])
      = actualWords s1.current_page ++ [(s1.current_word ++ [syl]).flatten] := by
    rw [actualWords_append, actualWords_single hcomp]
  have hpage_head : (s1.current_page ++ [(s1.current_word ++ [syl]).flatten]).head?
      ≠ some newlineMark := by
    rw [head?_concat]
    rcases h' : s1.current_page with _ | ⟨a, l⟩
    · simpa using hcomp
    · rw [h'] at hch; simpa using hch
  have hpage_last : (s1.current_page ++ [(s1.current_word ++ [syl]).flatten]).getLast?
      = some (s1.current_word ++ [syl]).flatten := List.getLast?_concat _
  have hflushed : ∀ extra : Prop,
      (shouldBreak ((s1.current_word ++ [syl]).flatten) = true
        ∨ maxw ≤ (s1.current_page ++ [(s1.current_word ++ [syl]).flatten]).length) →
      SegInv maxw ⟨s1.pages ++ [s1.current_page ++ [(s1.current_word ++ [syl]).flatten]],
        [], [], s1.word_timings ++ [t]⟩ := by
    intro _ hreason
    refine ⟨?_, ?_, ?_, ?_, ?_, ?_, ?_, ?_, ?_, ?_, ?_⟩
    · intro p hp
      rcases List.mem_append.mp hp with hp | hp
      · exact hpne p hp
      · rw [List.mem_singleton.mp hp]; simp
    · intro p hp
      rcases List.mem_append.mp hp with hp | hp
      · exact hph p hp
      · rw [List.mem_singleton.mp hp]; exact hpage_head
    · intro p hp
      rcases List.mem_append.mp hp with hp | hp
      · exact hpwc p hp
      · rw [List.mem_singleton.mp hp, hpage_actual]
        simpa using hcwc
    · intro p hp
      rcases List.mem_append.mp hp with hp | hp
      · exact hpl p hp
      · rw [List.mem_singleton.mp hp, hpage_last]
        exact hreason
    · intro p hp w hw
      rcases List.mem_append.mp hp with hp | hp
      · exact hpi p hp w hw
      · rw [List.mem_singleton.mp hp, hpage_actual, List.dropLast_concat] at hw
        exact hcnp w hw
    · simp
    · show 0 + 1 ≤ maxw; omega
    · intro _; show 0 + 1 ≤ maxw; omega
    · show 0 ≤ maxw; omega
    · intro w hw; cases hw
    · intro x hx; cases hx
  simp only [closeWord]
  split_ifs with h1 h2 h3
  · exact hflushed True (Or.inl h1)
  · exfalso
    rw [List.length_append] at h2
    simp at h2
  · exact hflushed True (Or.inr h3)
  · have hlt : (s1.current_page ++ [(s1.current_word ++ [syl]).flatten]).length < maxw := by
      omega
    have hfl : (actualWords (s1.current_page ++ [(s1.current_word ++ [syl]).flatten])).length
        ≤ (s1.current_page ++ [(s1.current_word ++ [syl]).flatten]).length :=
      List.length_filter_le _ _
    refine ⟨hpne, hph, hpwc, hpl, hpi, hpage_head, ?_, ?_, ?_, ?_, ?_⟩
    · rw [hpage_actual] at hfl ⊢
      rw [List.length_append] at hfl ⊢
      rw [List.length_append] at hlt
      simp only [List.length_singleton] at hfl hlt ⊢
      omega
    · intro _
      show (s1.current_page ++ [(s1.current_word ++ [syl]).flatten]).length + 1 ≤ maxw
      omega
    · show (s1.current_page ++ [(s1.current_word ++ [syl]).flatten]).length ≤ maxw
      omega
    · intro w hw
      rw [hpage_actual] at hw
      rcases List.mem_append.mp hw with hw | hw
      · exact hcnp w hw
      · rw [List.mem_singleton.mp hw]
        exact Bool.eq_false_iff.mpr h1
    · intro x hx; cases hx

theorem actualWords_cp_maybeNewline (s : SegState) (syl : List Char) :
    actualWords (maybeNewline s syl).current_page = actualWords s.current_page := by
  rcases maybeNewline_cp s syl with hc | ⟨hc, -, -⟩
  · rw [hc]
  · rw [hc, actualWords_append, actualWords_newlineMark, List.append_nil]

theorem head?_cp_maybeNewline (s : SegState) (syl : List Char) :
    (maybeNewline s syl).current_page.head? = s.current_page.head? := by
  rcases maybeNewline_cp s syl with hc | ⟨hc, hne, -⟩
  · rw [hc]
  · rw [hc, head?_concat]
    rcases h' : s.current_page with _ | ⟨a, l⟩
    · exact absurd h' hne
    · rfl

theorem SegInv_stepSyllable (maxw : ℕ) (ons : List ℚ) (i : ℕ) (s : SegState)
    (syl : List Char) (hmax : 1 ≤ maxw) (hsyl : ('\n') ∉ syl) (h : SegInv maxw s) :
    SegInv maxw (stepSyllable maxw ons i s syl) := by
  have hpages := maybeNewline_pages s syl
  have hcw := maybeNewline_current_word s syl
  have hcp_len1 : (maybeNewline s syl).current_page.length ≤ maxw := by
    rcases maybeNewline_cp s syl with hc | ⟨hc, -, hcwe⟩
    · rw [hc]; exact h.cp_len
    · rw [hc, List.length_append, List.length_singleton]
      exact h.cp_len_empty hcwe
  unfold stepSyllable
  split_ifs with hd
  · -- continuation syllable: extend the word buffer
    refine ⟨?_, ?_, ?_, ?_, ?_, ?_, ?_, ?_, ?_, ?_, ?_⟩
    · show ∀ p ∈ (maybeNewline s syl).pages, p ≠ []
      rw [hpages]; exact h.pages_ne
    · show ∀ p ∈ (maybeNewline s syl).pages, p.head? ≠ some newlineMark
      rw [hpages]; exact h.pages_head
    · show ∀ p ∈ (maybeNewline s syl).pages, (actualWords p).length ≤ maxw
      rw [hpages]; exact h.pages_wc
    · show ∀ p ∈ (maybeNewline s syl).pages, _ ∨ _
      rw [hpages]; exact h.pages_last
    · show ∀ p ∈ (maybeNewline s syl).pages, ∀ w ∈ _, _
      rw [hpages]; exact h.pages_inner
    · show (maybeNewline s syl).current_page.head? ≠ some newlineMark
      rw [head?_cp_maybeNewline]; exact h.cp_head
    · show (actualWords (maybeNewline s syl).current_page).length + 1 ≤ maxw
      rw [actualWords_cp_maybeNewline]; exact h.cp_wc
    · intro habs
      exact absurd habs (by simp [hcw])
    · exact hcp_len1
    · show ∀ w ∈ actualWords (maybeNewline s syl).current_page, shouldBreak w = false
      rw [actualWords_cp_maybeNewline]; exact h.cp_nopunct
    · show ∀ x ∈ (maybeNewline s syl).current_word ++ [rstripDash syl], ('\n') ∉ x
      rw [hcw]
      intro x hx
      rcases List.mem_append.mp hx with hx | hx
      · exact h.buf_nl x hx
      · rw [List.mem_singleton.mp hx]
        intro hc
        exact hsyl (mem_rstripDash hc)
  · -- word-closing syllable
    refine SegInv_closeWord maxw _ _ syl hmax hsyl ?_ ?_ ?_ ?_ ?_ ?_ ?_ ?_ ?_
    · rw [hpages]; exact h.pages_ne
    · rw [hpages]; exact h.pages_head
    · rw [hpages]; exact h.pages_wc
    · rw [hpages]; exact h.pages_last
    · rw [hpages]; exact h.pages_inner
    · rw [head?_cp_maybeNewline]; exact h.cp_head
    · rw [actualWords_cp_maybeNewline]; exact h.cp_wc
    · rw [actualWords_cp_maybeNewline]; exact h.cp_nopunct
    · rw [hcw]; exact h.buf_nl

theorem SegInv_initState (maxw : ℕ) (hmax : 1 ≤ maxw) : SegInv maxw initState := by
  refine ⟨?_, ?_, ?_, ?_, ?_, ?_, ?_, ?_, ?_, ?_, ?_⟩ <;>
    first
      | (intro p hp; cases hp)
      | (intro _; simp [initState, actualWords]; omega)
      | (simp [initState, actualWords]; omega)
      | simp [initState, actualWords]

theorem SegInv_segLoop (maxw : ℕ) (ons : List ℚ) (sylls : List (List Char))
    (hmax : 1 ≤ maxw) :
    ∀ (i : ℕ) (s : SegState), (∀ x ∈ sylls, ('\n') ∉ x) → SegInv maxw s →
      SegInv maxw (segLoop maxw ons i s sylls) := by
  induction sylls with
  | nil => intro i s _ h; exact h
  | cons syl rest ih =>
    intro i s hn h
    rw [segLoop]
    exact ih (i + 1) _ (fun x hx => hn x (List.mem_cons_of_mem _ hx))
      (SegInv_stepSyllable maxw ons i s syl hmax (hn syl (List.mem_cons_self syl rest)) h)

theorem SegInv_segmentRun (maxw : ℕ) (ons : List ℚ) (sylls : List (List Char))
    (hmax : 1 ≤ maxw) (hn : ∀ x ∈ sylls, ('\n') ∉ x) :
    SegInv maxw (segmentRun maxw ons sylls) :=
  SegInv_segLoop maxw ons sylls hmax 0 initState hn (SegInv_initState maxw hmax)

/-! ## The structural invariant, for arbitrary page-size bounds -/

theorem BasicInv_stepSyllable (maxw : ℕ) (ons : List ℚ) (i : ℕ) (s : SegState)
    (syl : List Char) (hsyl : ('\n') ∉ syl) (h : BasicInv s) :
    BasicInv (stepSyllable maxw ons i s syl) := by
  have hpages := maybeNewline_pages s syl
  have hcw := maybeNewline_current_word s syl
  have hch : (maybeNewline s syl).current_page.head? ≠ some newlineMark := by
    rw [head?_cp_maybeNewline]; exact h.cp_head
  have hbnl : ∀ x ∈ (maybeNewline s syl).current_word, ('\n') ∉ x := by
    rw [hcw]; exact h.buf_nl
  unfold stepSyllable
  split_ifs with hd
  · refine ⟨?_, ?_, hch, ?_⟩
    · show ∀ p ∈ (maybeNewline s syl).pages, p ≠ []
      rw [hpages]; exact h.pages_ne
    · show ∀ p ∈ (maybeNewline s syl).pages, p.head? ≠ some newlineMark
      rw [hpages]; exact h.pages_head
    · show ∀ x ∈ (maybeNewline s syl).current_word ++ [rstripDash syl], ('\n') ∉ x
      rw [hcw]
      intro x hx
      rcases List.mem_append.mp hx with hx | hx
      · exact h.buf_nl x hx
      · rw [List.mem_singleton.mp hx]
        intro hc
        exact hsyl (mem_rstripDash hc)
  · have hcomp : ((maybeNewline s syl).current_word ++ [syl]).flatten ≠ newlineMark :=
      complete_ne_newlineMark hbnl hsyl
    have hpage_head : ((maybeNewline s syl).current_page
          ++ [((maybeNewline s syl).current_word ++ [syl]).flatten]).head?
        ≠ some newlineMark := by
      rw [head?_concat]
      rcases h' : (maybeNewline s syl).current_page with _ | ⟨a, l⟩
      · simpa using hcomp
      · rw [h'] at hch; simpa using hch
    have hflush : BasicInv ⟨(maybeNewline s syl).pages
        ++ [(maybeNewline s syl).current_page
              ++ [((maybeNewline s syl).current_word ++ [syl]).flatten]],
        [], [], (maybeNewline s syl).word_timings ++ [ons.getD i 0]⟩ := by
      refine ⟨?_, ?_, ?_, ?_⟩
      · intro p hp
        rcases List.mem_append.mp hp with hp | hp
        · exact h.pages_ne p (hpages ▸ hp)
        · rw [List.mem_singleton.mp hp]; simp
      · intro p hp
        rcases List.mem_append.mp hp with hp | hp
        · exact h.pages_head p (hpages ▸ hp)
        · rw [List.mem_singleton.mp hp]; exact hpage_head
      · simp
      · intro x hx; cases hx
    have hstay : BasicInv ⟨(maybeNewline s syl).pages,
        (maybeNewline s syl).current_page
          ++ [((maybeNewline s syl).current_word ++ [syl]).flatten],
        [], (maybeNewline s syl).word_timings ++ [ons.getD i 0]⟩ := by
      refine ⟨?_, ?_, hpage_head, ?_⟩
      · intro p hp; exact h.pages_ne p (hpages ▸ hp)
      · intro p hp; exact h.pages_head p (hpages ▸ hp)
      · intro x hx; cases hx
    simp only [closeWord]
    split_ifs <;> first | exact hflush | exact hstay

theorem BasicInv_segmentRun (maxw : ℕ) (ons : List ℚ) (sylls : List (List Char))
    (hn : ∀ x ∈ sylls, ('\n') ∉ x) :
    BasicInv (segmentRun maxw ons sylls) := by
  have : ∀ (l : List (List Char)) (i : ℕ) (s : SegState),
      (∀ x ∈ l, ('\n') ∉ x) → BasicInv s → BasicInv (segLoop maxw ons i s l) := by
    intro l
    induction l with
    | nil => intro i s _ h; exact h
    | cons syl rest ih =>
      intro i s hl h
      rw [segLoop]
      exact ih (i + 1) _ (fun x hx => hl x (List.mem_cons_of_mem _ hx))
        (BasicInv_stepSyllable maxw ons i s syl (hl syl (List.mem_cons_self syl rest)) h)
  refine this sylls 0 initState hn ⟨?_, ?_, ?_, ?_⟩ <;>
    first
      | (intro p hp; cases hp)
      | simp [initState]

/-! ## Facts about the emitted page list -/

theorem makePages_cases (maxw : ℕ) (ons : List ℚ) (sylls : List (List Char)) :
    ∀ p ∈ makePages maxw ons sylls,
      p ∈ (segmentRun maxw ons sylls).pages
      ∨ (p = (segmentRun maxw ons sylls).current_page ∧ p ≠ []) := by
  intro p hp
  unfold makePages at hp
  split at hp
  · rename_i hne
    rcases List.mem_append.mp hp with hp | hp
    · exact Or.inl hp
    · refine Or.inr ⟨List.mem_singleton.mp hp, ?_⟩
      intro habs
      rw [List.mem_singleton.mp hp] at habs
      rw [habs] at hne
      simp at hne
  · exact Or.inl hp

theorem makePages_dropLast_mem (maxw : ℕ) (ons : List ℚ) (sylls : List (List Char)) :
    ∀ p ∈ (makePages maxw ons sylls).dropLast, p ∈ (segmentRun maxw ons sylls).pages := by
  intro p hp
  unfold makePages at hp
  split at hp
  · rw [List.dropLast_concat] at hp
    exact hp
  · exact (List.dropLast_sublist _).subset hp

theorem one_le_actualWords {p : List (List Char)} (hne : p ≠ [])
    (hh : p.head? ≠ some newlineMark) : 1 ≤ (actualWords p).length := by
  rcases p with _ | ⟨a, l⟩
  · exact absurd rfl hne
  · have ha : a ≠ newlineMark := by
      intro h'
      subst h'
      exact hh rfl
    have hmem : a ∈ actualWords (a :: l) :=
      List.mem_filter.mpr ⟨List.mem_cons_self a l, by simpa using ha⟩
    have := List.ne_nil_of_mem hmem
    rcases h' : actualWords (a :: l) with _ | _
    · exact absurd h' this
    · simp [h']

/-- C10: every page emitted by the segmenter is non-empty and its first element
is a word, never the `"\n"` line-break marker (the marker is only appended when
the current page already has content, and a page is only closed immediately
after appending a word); hence every page carries at least one actual word and
its start time is well-defined by its first word's onset. -/
theorem pages_nonempty_first_is_word (maxw : ℕ) (ons : List ℚ)
    (sylls : List (List Char)) (hn : ∀ x ∈ sylls, ('\n') ∉ x) :
    ∀ p ∈ makePages maxw ons sylls,
      p ≠ [] ∧ p.head? ≠ some newlineMark ∧ 1 ≤ (actualWords p).length := by
  have h := BasicInv_segmentRun maxw ons sylls hn
  intro p hp
  rcases makePages_cases maxw ons sylls p hp with hp | ⟨hp, hpne⟩
  · have h1 := h.pages_ne p hp
    have h2 := h.pages_head p hp
    exact ⟨h1, h2, one_le_actualWords h1 h2⟩
  · subst hp
    exact ⟨hpne, h.cp_head, one_le_actualWords hpne h.cp_head⟩

/-- Witness for C10 at a concrete input: the first emitted page of a concrete
run is non-empty, starts with a word, and carries at least one actual word. -/
theorem pages_nonempty_first_is_word_witness :
    1 ≤ (actualWords [['a'], ['\n'], ['B']]).length :=
  (pages_nonempty_first_is_word 3 [0, 1, 2] [['a'], ['B'], ['c']] (by decide)
    [['a'], ['\n'], ['B']] (by decide)).2.2

/-- C6 counterexample: with `maxWordsPerPage = 3` and tokens `a`, `B`, `c`, the
first page is flushed by the count backstop while holding only two actual words
(the `"\n"` marker inflates the element count to three), and its last word `B`
does not end in break punctuation: the page closes although its word count
never reached `maxWordsPerPage`, so the backstop does not count words. -/
theorem backstop_counts_markers_cex :
    makePages 3 [0, 1, 2] [['a'], ['B'], ['c']]
        = [[['a'], ['\n'], ['B']], [['c']]]
      ∧ (actualWords [['a'], ['\n'], ['B']]).length = 2
      ∧ shouldBreak ['B'] = false
      ∧ (2 : ℕ) < 3 := by
  refine ⟨by decide, by decide, by decide, by decide⟩

/-- C6 amended: a page is closed immediately after any assembled word whose
trailing character is in the break-punctuation set, and otherwise a page is
closed as soon as its element count — actual words plus `"\n"` line-break
markers — reaches `maxWordsPerPage` (not its word count, which may still be
below the threshold); for `maxWordsPerPage ≥ 1` no emitted page contains more
than `maxWordsPerPage` actual words, only the last word of a page can end in
break punctuation, and every non-final page was flushed either for punctuation
or because its element count reached the threshold. -/
theorem paging_break_rules (maxw : ℕ) (ons : List ℚ) (sylls : List (List Char))
    (hmax : 1 ≤ maxw) (hn : ∀ x ∈ sylls, ('\n') ∉ x) :
    (∀ p ∈ makePages maxw ons sylls, (actualWords p).length ≤ maxw
      ∧ ∀ w ∈ (actualWords p).dropLast, shouldBreak w = false)
    ∧ ∀ p ∈ (makePages maxw ons sylls).dropLast,
        shouldBreak (p.getLast?.getD []) = true ∨ maxw ≤ p.length := by
  have h := SegInv_segmentRun maxw ons sylls hmax hn
  constructor
  · intro p hp
    rcases makePages_cases maxw ons sylls p hp with hp | ⟨hp, hpne⟩
    · exact ⟨h.pages_wc p hp, h.pages_inner p hp⟩
    · subst hp
      have := h.cp_wc
      refine ⟨by omega, ?_⟩
      intro w hw
      exact h.cp_nopunct w ((List.dropLast_sublist _).subset hw)
  · intro p hp
    exact h.pages_last p (makePages_dropLast_mem maxw ons sylls p hp)

/-- Witness for C6 (amended) at the counterexample input, instantiated at the
first emitted page: its word count is within the bound and it was flushed for
one of the two break reasons. -/
theorem paging_break_rules_witness :
    (actualWords [['a'], ['\n'], ['B']]).length ≤ 3
    ∧ (shouldBreak ((([['a'], ['\n'], ['B']] : List (List Char)).getLast?).getD [])
          = true
        ∨ 3 ≤ ([['a'], ['\n'], ['B']] : List (List Char)).length) :=
  ⟨((paging_break_rules 3 [0, 1, 2] [['a'], ['B'], ['c']] (by decide) (by decide)).1
      [['a'], ['\n'], ['B']] (by decide)).1,
    (paging_break_rules 3 [0, 1, 2] [['a'], ['B'], ['c']] (by decide) (by decide)).2
      [['a'], ['\n'], ['B']] (by decide)⟩

/-! ## Reconciliation claims -/

theorem getD_map_range {β : Type} (f : ℕ → β) (d : β) (k j : ℕ) (hj : j < k) :
    ((List.range k).map f).getD j d = f j := by
  rw [List.getD_eq_getElem?_getD, List.getElem?_map, List.getElem?_range hj]
  rfl

theorem chain_lt_map_range (a s : ℚ) (hs : 0 < s) (k : ℕ) :
    List.Chain (· < ·) a ((List.range k).map (fun j : ℕ => a + ((j : ℚ) + 1) * s)) := by
  rw [List.chain_iff_get]
  constructor
  · intro h
    simp only [List.get_eq_getElem, List.getElem_map, List.getElem_range]
    nlinarith
  · intro i h
    simp only [List.get_eq_getElem, List.getElem_map, List.getElem_range]
    have h2 : ((i : ℚ) + 1) * s < (((i + 1 : ℕ) : ℚ) + 1) * s := by
      push_cast
      nlinarith
    linarith

/-- C4 counterexample: with one onset `5.0`, two tokens and audio duration
`4.0`, reconciliation returns `[5.0, 4.0]`: the synthesized timestamp lies
below the last real onset, so the appended timestamps are not strictly
increasing (the claim holds no quantitative hypothesis relating the last onset
to the duration). -/
theorem reconcile_not_increasing_cex :
    reconcileOnsets [5] 2 4 = some [5, 4] ∧ (4 : ℚ) < 5 := by
  constructor
  · norm_num [reconcileOnsets, List.range_succ]
  · norm_num

/-- C4 amended: for `0 < N < M` and a last real onset strictly below the audio
duration, reconciliation keeps the `N` onsets unchanged and appends exactly
`M - N` timestamps, evenly spaced at step `(duration - last) / (M - N)` and
strictly increasing from the last real onset; without the
`last onset < duration` proviso the synthesized sequence can decrease. -/
theorem reconcile_appends_evenly_spaced (onsets : List ℚ) (M : ℕ) (d last : ℚ)
    (_hN : 0 < onsets.length) (hNM : onsets.length < M)
    (hlast : onsets.getLast? = some last) (hd : last < d) :
    ∃ extras : List ℚ,
      reconcileOnsets onsets M d = some (onsets ++ extras)
      ∧ extras.length = M - onsets.length
      ∧ (∀ j < M - onsets.length,
          extras.getD j 0
            = last + ((j : ℚ) + 1) * ((d - last) / ((M - onsets.length : ℕ) : ℚ)))
      ∧ List.Chain (· < ·) last extras := by
  refine ⟨(List.range (M - onsets.length)).map
    (fun j : ℕ => last + ((j : ℚ) + 1) * ((d - last) / ((M - onsets.length : ℕ) : ℚ))),
    ?_, ?_, ?_, ?_⟩
  · unfold reconcileOnsets
    rw [if_pos hNM, hlast]
  · simp
  · intro j hj
    exact getD_map_range _ 0 _ j hj
  · have hk : 0 < ((M - onsets.length : ℕ) : ℚ) := by
      have : 0 < M - onsets.length := by omega
      exact_mod_cast this
    exact chain_lt_map_range last _ (div_pos (by linarith) hk) _

/-- Witness for C4 (amended) at the spec's own example: tokens `a b c`, onsets
`[1.0]`, duration `4.0` give the reconciled sequence `[1.0, 2.5, 4.0]`, with
the synthesized tail strictly increasing above the last real onset. -/
theorem reconcile_appends_evenly_spaced_witness :
    reconcileOnsets [1] 3 4 = some [1, 5/2, 4]
      ∧ (1 : ℚ) < 5/2 ∧ (5/2 : ℚ) < 4 := by
  obtain ⟨extras, h1, h2, h3, h4⟩ :=
    reconcile_appends_evenly_spaced [1] 3 4 1 (by decide) (by decide) (by decide)
      (by norm_num)
  have hval : reconcileOnsets [1] 3 4 = some [1, 5/2, 4] := by
    unfold reconcileOnsets
    norm_num [List.range_succ]
  rw [hval] at h1
  injection h1 with h1
  have hex : extras = [5/2, 4] := by
    have h5 := h1.symm
    rw [List.cons_append, List.nil_append] at h5
    injection h5 with h5a h5b
  subst hex
  rw [List.chain_cons, List.chain_cons] at h4
  exact ⟨hval, h4.1, h4.2.1⟩

/-- C7: with zero onsets and a non-empty token list the run aborts before any
page is produced: the reconciler evaluates `onset_times[-1]` on an empty array
and the uncaught `IndexError` stops the pipeline (modelled as `none`). -/
theorem empty_onsets_aborts (maxw : ℕ) (sylls : List (List Char)) (d : ℚ)
    (hne : sylls ≠ []) :
    pipeline maxw sylls [] d = none := by
  have hM : 0 < sylls.length := List.length_pos.mpr hne
  unfold pipeline reconcileOnsets
  rw [if_pos (by simpa using hM)]
  rfl

/-- Witness for C7 at a concrete input. -/
theorem empty_onsets_aborts_witness :
    pipeline 15 [['a']] [] 3 = none :=
  empty_onsets_aborts 15 [['a']] 3 (by decide)

/-! ## Word-assembly claims -/

theorem asmAux_run (ons : List ℚ) (t : List Char) (rest : List (List Char)) :
    ∀ (cs buf : List (List Char)) (i : ℕ),
      (∀ c ∈ cs, endsDash c = true) → endsDash t = false →
      asmAux ons i buf (cs ++ t :: rest)
        = ((buf ++ cs.map rstripDash ++ [t]).flatten, ons.getD (i + cs.length) 0)
            :: asmAux ons (i + cs.length + 1) [] rest := by
  intro cs
  induction cs with
  | nil =>
    intro buf i _ ht
    simp only [List.nil_append, List.map_nil, List.append_nil, List.length_nil,
      Nat.add_zero]
    rw [asmAux, if_neg (by rw [ht]; intro h; cases h)]
  | cons c cs ih =>
    intro buf i hcs ht
    have hc : endsDash c = true := hcs c (List.mem_cons_self c cs)
    have hcs' : ∀ x ∈ cs, endsDash x = true :=
      fun x hx => hcs x (List.mem_cons_of_mem _ hx)
    have hidx : i + (c :: cs).length = i + 1 + cs.length := by
      rw [List.length_cons]; omega
    rw [List.cons_append, asmAux, if_pos hc, ih _ _ hcs' ht, hidx]
    congr 3
    simp [List.append_assoc]

/-- C5: the word assembler merges each maximal run of continuation-marked
tokens with the following plain token into a single word (markers stripped),
stamps the closed word with the reconciled onset at the index of its last
constituent token, and proceeds on the remaining tokens with an empty
buffer. -/
theorem assembler_merges_runs (ons : List ℚ) (cs : List (List Char))
    (t : List Char) (rest : List (List Char)) (i : ℕ)
    (hcs : ∀ c ∈ cs, endsDash c = true) (ht : endsDash t = false) :
    asmAux ons i [] (cs ++ t :: rest)
      = ((cs.map rstripDash ++ [t]).flatten, ons.getD (i + cs.length) 0)
          :: asmAux ons (i + cs.length + 1) [] rest := by
  have h := asmAux_run ons t rest cs [] i hcs ht
  simpa using h

/-- Witness for C5 at the spec's own example: tokens `syl- lable next` with
onsets `[0.5, 0.5, 1.2]` yield the word `syllable` stamped `0.5` (the onset of
its closing token) and continue with `next`. -/
theorem assembler_merges_runs_witness :
    asmAux [1/2, 1/2, 6/5] 0 []
        [['s', 'y', 'l', '-'], ['l', 'a', 'b', 'l', 'e'], ['n', 'e', 'x', 't']]
      = (([['s', 'y', 'l', '-']].map rstripDash ++ [['l', 'a', 'b', 'l', 'e']]).flatten,
          ([1/2, 1/2, 6/5] : List ℚ).getD (0 + [['s', 'y', 'l', '-']].length) 0)
        :: asmAux [1/2, 1/2, 6/5] (0 + [['s', 'y', 'l', '-']].length + 1) []
            [['n', 'e', 'x', 't']] :=
  assembler_merges_runs [1/2, 1/2, 6/5] [['s', 'y', 'l', '-']]
    ['l', 'a', 'b', 'l', 'e'] [['n', 'e', 'x', 't']] 0 (by decide) (by decide)

example : asmAux [1/2, 1/2, 6/5] 0 []
    [['s', 'y', 'l', '-'], ['l', 'a', 'b', 'l', 'e'], ['n', 'e', 'x', 't']]
    = [(['s', 'y', 'l', 'l', 'a', 'b', 'l', 'e'], 1/2), (['n', 'e', 'x', 't'], 6/5)] := by
  simp [asmAux, endsDash, rstripDash]

/-! ## Trailing continuation tokens -/

theorem assembleWords_all_dash (ts : List (List Char)) :
    ∀ buf, (∀ x ∈ ts, endsDash x = true) → assembleWords buf ts = [] := by
  induction ts with
  | nil => intro buf _; rfl
  | cons c cs ih =>
    intro buf h
    rw [assembleWords, if_pos (h c (List.mem_cons_self c cs))]
    exact ih _ (fun x hx => h x (List.mem_cons_of_mem _ hx))

theorem assembleWords_append_dash (sylls ts : List (List Char))
    (hdash : ∀ x ∈ ts, endsDash x = true) :
    ∀ buf, assembleWords buf (sylls ++ ts) = assembleWords buf sylls := by
  induction sylls with
  | nil =>
    intro buf
    rw [List.nil_append, assembleWords_all_dash ts buf hdash]
    rfl
  | cons syl rest ih =>
    intro buf
    rw [List.cons_append]
    by_cases hd : endsDash syl = true
    · simp only [assembleWords, if_pos hd]
      exact ih _
    · simp only [assembleWords, if_neg hd]
      rw [ih]

theorem reconcileOnsets_isSome (ons : List ℚ) (M : ℕ) (d : ℚ) (h : ons ≠ []) :
    (reconcileOnsets ons M d).isSome = true := by
  unfold reconcileOnsets
  split
  · rcases h' : ons.getLast? with _ | last
    · rw [List.getLast?_eq_none_iff] at h'
      exact absurd h' h
    · simp
  · simp

/-- C8 counterexample: the token list `a`, `b-` ends with a continuation
marker, yet the pipeline neither signals an error nor withholds output: it
succeeds and emits the page `[a]`, silently discarding the buffered partial
word `b`. -/
theorem trailing_continuation_no_error_cex :
    pipeline 15 [['a'], ['b', '-']] [0, 1] 4
        = some ([[['a']]], [0], [(0, 0, [(0, 0)])])
      ∧ (pipeline 15 [['a'], ['b', '-']] [0, 1] 4).isSome = true := by
  have hrec : reconcileOnsets [0, 1] 2 4 = some [0, 1] := by
    unfold reconcileOnsets
    norm_num
  have hrun : segmentRun 15 [0, 1] [['a'], ['b', '-']]
      = ⟨[], [['a']], [['b']], [0]⟩ := by decide
  have hpages : makePages 15 [0, 1] [['a'], ['b', '-']] = [[['a']]] := by
    unfold makePages
    rw [hrun]
    decide
  have htimings : wordTimings 15 [0, 1] [['a'], ['b', '-']] = [0] := by
    unfold wordTimings
    rw [hrun]
  have hsched : schedule [0] [[['a']]] = [(0, 0, [(0, 0)])] := by
    norm_num [schedule, scheduleAux, pageSchedule, actualWords, newlineMark]
    decide
  have hmain : pipeline 15 [['a'], ['b', '-']] [0, 1] 4
      = some ([[['a']]], [0], [(0, 0, [(0, 0)])]) := by
    unfold pipeline
    have hlen : ([['a'], ['b', '-']] : List (List Char)).length = 2 := rfl
    rw [hlen, hrec, Option.map_some', hpages, htimings, hsched]
  refine ⟨hmain, ?_⟩
  rw [hmain]
  rfl

/-- C8 amended: when the token sequence ends in a run of continuation-marked
tokens, the word buffer is non-empty at loop exit but no error is signalled:
the run completes (whenever at least one onset exists), the buffered partial
word reaches no page, and the pages assembled from the completed words are
emitted unchanged in word content. -/
theorem trailing_continuation_dropped (maxw : ℕ) (ons : List ℚ) (d : ℚ)
    (sylls ts : List (List Char))
    (hn : ∀ x ∈ sylls ++ ts, ('\n') ∉ x)
    (hdash : ∀ x ∈ ts, endsDash x = true) (hons : ons ≠ []) :
    ((makePages maxw ons (sylls ++ ts)).map actualWords).flatten
        = assembleWords [] sylls
      ∧ pipeline maxw (sylls ++ ts) ons d ≠ none := by
  constructor
  · rw [makePages_words maxw ons (sylls ++ ts) hn]
    exact assembleWords_append_dash sylls ts hdash []
  · intro habs
    have hs := reconcileOnsets_isSome ons (sylls ++ ts).length d hons
    rcases Option.isSome_iff_exists.mp hs with ⟨v, hv⟩
    rw [pipeline, hv] at habs
    cases habs

/-- Witness for C8 (amended) at the counterexample input. -/
theorem trailing_continuation_dropped_witness :
    ((makePages 15 [0, 1] ([['a']] ++ [['b', '-']])).map actualWords).flatten
        = assembleWords [] [['a']]
      ∧ (pipeline 15 ([['a']] ++ [['b', '-']]) [0, 1] 4).isSome = true := by
  obtain ⟨h1, h2⟩ := trailing_continuation_dropped 15 [0, 1] 4 [['a']] [['b', '-']]
    (by decide) (by decide) (by decide)
  exact ⟨h1, Option.isSome_iff_ne_none.mpr h2⟩

/-! ## Fixed-count paging (modelled from the spec) -/

theorem fixedStep_pos {α : Type} (wpp : ℕ) (pages : List (List α)) (cur : List α)
    (w : α) (h : wpp ≤ (cur ++ [w]).length) :
    fixedStep wpp (pages, cur) w = (pages ++ [cur ++ [w]], []) := by
  unfold fixedStep
  rw [if_pos h]

theorem fixedStep_neg {α : Type} (wpp : ℕ) (pages : List (List α)) (cur : List α)
    (w : α) (h : ¬ wpp ≤ (cur ++ [w]).length) :
    fixedStep wpp (pages, cur) w = (pages, cur ++ [w]) := by
  unfold fixedStep
  rw [if_neg h]

theorem fixedStep_flatten {α : Type} (wpp : ℕ) :
    ∀ (ws : List α) (pages : List (List α)) (cur : List α),
      (ws.foldl (fixedStep wpp) (pages, cur)).1.flatten
          ++ (ws.foldl (fixedStep wpp) (pages, cur)).2
        = pages.flatten ++ cur ++ ws := by
  intro ws
  induction ws with
  | nil => intro pages cur; simp
  | cons w rest ih =>
    intro pages cur
    rw [List.foldl_cons]
    by_cases h : wpp ≤ (cur ++ [w]).length
    · rw [fixedStep_pos wpp pages cur w h, ih]
      simp [List.flatten_append, List.append_assoc]
    · rw [fixedStep_neg wpp pages cur w h, ih]
      simp [List.append_assoc]

theorem fixedStep_sizes {α : Type} (wpp : ℕ) (hw : 1 ≤ wpp) :
    ∀ (ws : List α) (pages : List (List α)) (cur : List α),
      (∀ p ∈ pages, p.length = wpp) → cur.length < wpp →
      (∀ p ∈ (ws.foldl (fixedStep wpp) (pages, cur)).1, p.length = wpp)
        ∧ (ws.foldl (fixedStep wpp) (pages, cur)).2.length < wpp := by
  intro ws
  induction ws with
  | nil => intro pages cur hp hc; exact ⟨hp, hc⟩
  | cons w rest ih =>
    intro pages cur hp hc
    rw [List.foldl_cons]
    by_cases h : wpp ≤ (cur ++ [w]).length
    · rw [fixedStep_pos wpp pages cur w h]
      refine ih _ _ ?_ (by simpa using hw)
      intro p hpmem
      rcases List.mem_append.mp hpmem with hpmem | hpmem
      · exact hp p hpmem
      · rw [List.mem_singleton.mp hpmem, List.length_append, List.length_singleton]
        rw [List.length_append, List.length_singleton] at h
        omega
    · rw [fixedStep_neg wpp pages cur w h]
      refine ih _ _ hp ?_
      rw [List.length_append, List.length_singleton]
      rw [List.length_append, List.length_singleton] at h
      omega

/-- C9 (the fixed-count paging strategy is modelled from the spec; it is not in
`src/`): fixed-count paging reproduces the word sequence exactly, closes a page
exactly when its running word count reaches `wordsPerPage` (so every non-final
page has exactly `wordsPerPage` words and every page between 1 and
`wordsPerPage` words), and in particular any 5-word sequence with
`wordsPerPage = 2` produces pages of sizes `[2, 2, 1]`. -/
theorem fixed_count_paging {α : Type} (wpp : ℕ) (ws : List α) (hw : 1 ≤ wpp) :
    (fixedPages wpp ws).flatten = ws
    ∧ (∀ p ∈ (fixedPages wpp ws).dropLast, p.length = wpp)
    ∧ (∀ p ∈ fixedPages wpp ws, 1 ≤ p.length ∧ p.length ≤ wpp)
    ∧ (ws.length = 5 → (fixedPages 2 ws).map List.length = [2, 2, 1]) := by
  have hflat := fixedStep_flatten wpp ws [] []
  have hsz := fixedStep_sizes wpp hw ws [] [] (by intro p hp; cases hp)
    (by simpa using hw)
  refine ⟨?_, ?_, ?_, ?_⟩
  · unfold fixedPages
    split
    · rw [List.flatten_append, List.flatten_cons, List.flatten_nil, List.append_nil]
      simpa using hflat
    · rename_i hcur
      have h2 : (ws.foldl (fixedStep wpp) ([], [])).2 = [] := by
        rcases h' : (ws.foldl (fixedStep wpp) ([], [])).2 with _ | _
        · rfl
        · rw [h'] at hcur; simp at hcur
      rw [h2, List.append_nil] at hflat
      simpa using hflat
  · intro p hp
    unfold fixedPages at hp
    split at hp
    · rw [List.dropLast_concat] at hp
      exact hsz.1 p hp
    · exact hsz.1 p ((List.dropLast_sublist _).subset hp)
  · intro p hp
    unfold fixedPages at hp
    split at hp
    · rename_i hcond
      rcases List.mem_append.mp hp with hp | hp
      · have := hsz.1 p hp; omega
      · rw [List.mem_singleton.mp hp]
        have hlt := hsz.2
        have hne : (ws.foldl (fixedStep wpp) ([], [])).2 ≠ [] := by
          intro habs
          rw [habs] at hcond
          simp at hcond
        have hpos : 0 < (ws.foldl (fixedStep wpp) ([], [])).2.length :=
          List.length_pos.mpr hne
        omega
    · have := hsz.1 p hp; omega
  · intro h5
    rcases ws with _ | ⟨a, ws⟩; · simp at h5
    rcases ws with _ | ⟨b, ws⟩; · simp at h5
    rcases ws with _ | ⟨c, ws⟩; · simp at h5
    rcases ws with _ | ⟨d, ws⟩; · simp at h5
    rcases ws with _ | ⟨e, ws⟩; · simp at h5
    rcases ws with _ | ⟨f, ws⟩
    · rfl
    · simp at h5

/-- Witness for C9 at a concrete 5-word sequence with `wordsPerPage = 2`. -/
theorem fixed_count_paging_witness :
    (fixedPages 2 [0, 1, 2, 3, 4]).flatten = [0, 1, 2, 3, 4]
    ∧ (fixedPages 2 [0, 1, 2, 3, 4]).map List.length = [2, 2, 1] :=
  ⟨(fixed_count_paging 2 [0, 1, 2, 3, 4] (by decide)).1,
    (fixed_count_paging 2 [0, 1, 2, 3, 4] (by decide)).2.2.2 (by decide)⟩

/-! ## The highlight schedule -/

theorem takeWhile_all {α : Type} (p : α → Bool) :
    ∀ l : List α, (∀ a ∈ l, p a = true) → l.takeWhile p = l := by
  intro l
  induction l with
  | nil => intro _; rfl
  | cons a t ih =>
    intro h
    rw [List.takeWhile_cons, if_pos (h a (List.mem_cons_self a t))]
    rw [ih (fun x hx => h x (List.mem_cons_of_mem _ hx))]

theorem pageSchedule_fst (timings : List ℚ) (word_idx : ℕ) (page : List (List Char)) :
    (pageSchedule timings word_idx page).1 = timings.getD word_idx 0 := rfl

theorem pageSchedule_pe (timings : List ℚ) (word_idx : ℕ) (page : List (List Char)) :
    (pageSchedule timings word_idx page).2.1
      = timings.getD
          (min (word_idx + (actualWords page).length - 1) (timings.length - 1)) 0 := rfl

theorem pageSchedule_ivs (timings : List ℚ) (word_idx : ℕ) (page : List (List Char))
    (hle : word_idx + (actualWords page).length ≤ timings.length) :
    (pageSchedule timings word_idx page).2.2
      = (List.range (actualWords page).length).map (fun k =>
          (timings.getD (word_idx + k) 0 - timings.getD word_idx 0,
            (if word_idx + k < timings.length - 1 then
              timings.getD (word_idx + k + 1) 0
            else (pageSchedule timings word_idx page).2.1)
              - timings.getD word_idx 0)) := by
  have htw : (List.range (actualWords page).length).takeWhile
      (fun k => decide (word_idx + k < timings.length))
        = List.range (actualWords page).length := by
    refine takeWhile_all _ _ ?_
    intro a ha
    rw [List.mem_range] at ha
    exact decide_eq_true (by omega)
  show ((List.range (actualWords page).length).takeWhile
      (fun k => decide (word_idx + k < timings.length))).map _ = _
  rw [htw, pageSchedule_pe]

theorem scheduleAux_length (timings : List ℚ) :
    ∀ (pages : List (List (List Char))) (w : ℕ),
      (scheduleAux timings w pages).length = pages.length := by
  intro pages
  induction pages with
  | nil => intro w; rfl
  | cons p rest ih =>
    intro w
    rw [scheduleAux, List.length_cons, List.length_cons, ih]

theorem scheduleAux_getD (timings : List ℚ) :
    ∀ (pages : List (List (List Char))) (w j : ℕ), j < pages.length →
      (scheduleAux timings w pages).getD j (0, 0, [])
        = pageSchedule timings (w + pageStartIdx pages j) (pages.getD j []) := by
  intro pages
  induction pages with
  | nil => intro w j hj; cases hj
  | cons p rest ih =>
    intro w j hj
    rcases j with _ | j
    · rw [scheduleAux]
      simp [pageStartIdx]
    · rw [scheduleAux, List.getD_cons_succ, List.getD_cons_succ,
        ih (w + (actualWords p).length) j (by simpa using hj)]
      have : w + (actualWords p).length + pageStartIdx rest j
          = w + pageStartIdx (p :: rest) (j + 1) := by
        rw [pageStartIdx, pageStartIdx, List.take_succ_cons, List.map_cons,
          List.sum_cons]
        omega
      rw [this]

theorem schedule_getD (timings : List ℚ) (pages : List (List (List Char))) (j : ℕ)
    (hj : j < pages.length) :
    (schedule timings pages).getD j (0, 0, [])
      = pageSchedule timings (pageStartIdx pages j) (pages.getD j []) := by
  rw [schedule, scheduleAux_getD timings pages 0 j hj, Nat.zero_add]

theorem pageStartIdx_succ (pages : List (List (List Char))) (j : ℕ)
    (hj : j < pages.length) :
    pageStartIdx pages (j + 1)
      = pageStartIdx pages j + (actualWords (pages.getD j [])).length := by
  rw [pageStartIdx, pageStartIdx, List.take_succ, List.map_append, List.sum_append]
  rw [List.getElem?_eq_getElem hj]
  simp [List.getD, List.getElem?_eq_getElem hj]

theorem pageStartIdx_le (pages : List (List (List Char))) (j : ℕ) :
    pageStartIdx pages j ≤ (pages.map (fun p => (actualWords p).length)).sum := by
  rw [pageStartIdx, List.map_take]
  have h1 : List.Sublist ((pages.map (fun p => (actualWords p).length)).take j)
      (pages.map (fun p => (actualWords p).length)) :=
    List.take_sublist _ _
  exact List.Sublist.sum_le_sum h1 (by intro x _; omega)

theorem makePages_word_count_pos (maxw : ℕ) (ons : List ℚ) (sylls : List (List Char))
    (hn : ∀ x ∈ sylls, ('\n') ∉ x) :
    ∀ p ∈ makePages maxw ons sylls, 1 ≤ (actualWords p).length := by
  have h := BasicInv_segmentRun maxw ons sylls hn
  intro p hp
  rcases makePages_cases maxw ons sylls p hp with hp | ⟨hp, hpne⟩
  · exact one_le_actualWords (h.pages_ne p hp) (h.pages_head p hp)
  · subst hp
    exact one_le_actualWords hpne h.cp_head

theorem timings_length_eq_sum (maxw : ℕ) (ons : List ℚ) (sylls : List (List Char))
    (hn : ∀ x ∈ sylls, ('\n') ∉ x) :
    ((makePages maxw ons sylls).map (fun p => (actualWords p).length)).sum
      = (wordTimings maxw ons sylls).length := by
  have h1 := makePages_words maxw ons sylls hn
  have h2 := segmentRun_word_timings maxw ons sylls hn
  have hlen1 : ((makePages maxw ons sylls).map actualWords).flatten.length
      = (assembleWords [] sylls).length := by rw [h1]
  rw [List.length_flatten, List.map_map] at hlen1
  have hlen2 : (wordTimings maxw ons sylls).length
      = (asmAux ons 0 [] sylls).length := by
    rw [wordTimings, h2, List.length_map]
  have hlen3 : (assembleWords [] sylls).length = (asmAux ons 0 [] sylls).length := by
    rw [← asmAux_map_fst ons sylls [] 0, List.length_map]
  rw [hlen2, ← hlen3, ← hlen1]
  rfl

theorem pipeline_inv (maxw : ℕ) (sylls : List (List Char)) (onsets : List ℚ) (d : ℚ)
    (pages : List (List (List Char))) (timings : List ℚ)
    (sched : List (ℚ × ℚ × List (ℚ × ℚ)))
    (hp : pipeline maxw sylls onsets d = some (pages, timings, sched)) :
    ∃ ons0, reconcileOnsets onsets sylls.length d = some ons0
      ∧ pages = makePages maxw ons0 sylls
      ∧ timings = wordTimings maxw ons0 sylls
      ∧ sched = schedule (wordTimings maxw ons0 sylls) (makePages maxw ons0 sylls) := by
  unfold pipeline at hp
  rcases h' : reconcileOnsets onsets sylls.length d with _ | v
  · rw [h'] at hp
    cases hp
  · rw [h', Option.map_some'] at hp
    injection hp with hp
    rw [Prod.ext_iff] at hp
    obtain ⟨e1, hp⟩ := hp
    rw [Prod.ext_iff] at hp
    obtain ⟨e2, e3⟩ := hp
    exact ⟨v, rfl, e1.symm, e2.symm, e3.symm⟩

/-- C2: for every page `j` of the pipeline output and every word on it, the
highlight interval of the word at offset `k` (global index
`pageStartIdx + k`) is `(onset(g) - onset(pageStart), onset(g+1) -
onset(pageStart))` when a next word exists globally (`g < totalWords - 1`),
and `(onset(g) - onset(pageStart), pageEndTime - onset(pageStart))` for the
very last word; consequently the intervals of consecutive words on the same
page are contiguous: `relativeEnd(k) = relativeStart(k+1)`. -/
theorem highlight_interval_formulas (maxw : ℕ) (sylls : List (List Char))
    (onsets : List ℚ) (d : ℚ) (pages : List (List (List Char)))
    (timings : List ℚ) (sched : List (ℚ × ℚ × List (ℚ × ℚ)))
    (hn : ∀ x ∈ sylls, ('\n') ∉ x)
    (hp : pipeline maxw sylls onsets d = some (pages, timings, sched))
    (j : ℕ) (hj : j < pages.length) :
    ((sched.getD j (0, 0, [])).2.2).length = (actualWords (pages.getD j [])).length
    ∧ (sched.getD j (0, 0, [])).1 = timings.getD (pageStartIdx pages j) 0
    ∧ (∀ k, k < (actualWords (pages.getD j [])).length →
        ((sched.getD j (0, 0, [])).2.2).getD k (0, 0)
          = (timings.getD (pageStartIdx pages j + k) 0
                - timings.getD (pageStartIdx pages j) 0,
              (if pageStartIdx pages j + k < timings.length - 1 then
                timings.getD (pageStartIdx pages j + k + 1) 0
              else (sched.getD j (0, 0, [])).2.1)
                - timings.getD (pageStartIdx pages j) 0))
    ∧ (∀ k, k + 1 < (actualWords (pages.getD j [])).length →
        (((sched.getD j (0, 0, [])).2.2).getD k (0, 0)).2
          = (((sched.getD j (0, 0, [])).2.2).getD (k + 1) (0, 0)).1) := by
  obtain ⟨ons0, hrec, hpg, htm, hsc⟩ :=
    pipeline_inv maxw sylls onsets d pages timings sched hp
  subst hpg
  subst htm
  subst hsc
  have hsum := timings_length_eq_sum maxw ons0 sylls hn
  have hpos := makePages_word_count_pos maxw ons0 sylls hn
  have hnj : 1 ≤ (actualWords ((makePages maxw ons0 sylls).getD j [])).length := by
    refine hpos _ ?_
    rw [List.getD_eq_getElem?_getD, List.getElem?_eq_getElem hj]
    exact List.getElem_mem _
  have hle : pageStartIdx (makePages maxw ons0 sylls) j
        + (actualWords ((makePages maxw ons0 sylls).getD j [])).length
      ≤ (wordTimings maxw ons0 sylls).length := by
    rw [← pageStartIdx_succ _ j hj, ← hsum]
    exact pageStartIdx_le _ _
  have hsj := schedule_getD (wordTimings maxw ons0 sylls) (makePages maxw ons0 sylls) j hj
  rw [hsj, pageSchedule_ivs _ _ _ hle]
  refine ⟨by rw [List.length_map, List.length_range], pageSchedule_fst _ _ _, ?_, ?_⟩
  · intro k hk
    rw [getD_map_range _ (0, 0) _ k hk]
  · intro k hk
    rw [getD_map_range _ (0, 0) _ k (by omega), getD_map_range _ (0, 0) _ (k + 1) hk]
    have hcond : pageStartIdx (makePages maxw ons0 sylls) j + k
        < (wordTimings maxw ons0 sylls).length - 1 := by omega
    rw [if_pos hcond]
    have harith : pageStartIdx (makePages maxw ons0 sylls) j + k + 1
        = pageStartIdx (makePages maxw ons0 sylls) j + (k + 1) := by omega
    rw [harith]

theorem pipeline_two_pages_eval :
    pipeline 15 [['a', '.'], ['b']] [0, 1] 4
      = some ([[['a', '.']], [['b']]], [0, 1],
          [(0, 0, [(0, 1)]), (1, 1, [(0, 0)])]) := by
  have hrec : reconcileOnsets [0, 1] 2 4 = some [0, 1] := by
    unfold reconcileOnsets
    norm_num
  have hrun : segmentRun 15 [0, 1] [['a', '.'], ['b']]
      = ⟨[[['a', '.']]], [['b']], [], [0, 1]⟩ := by decide
  have hpages : makePages 15 [0, 1] [['a', '.'], ['b']] = [[['a', '.']], [['b']]] := by
    unfold makePages
    rw [hrun]
    decide
  have htimings : wordTimings 15 [0, 1] [['a', '.'], ['b']] = [0, 1] := by
    unfold wordTimings
    rw [hrun]
  have hsched : schedule [0, 1] [[['a', '.']], [['b']]]
      = [(0, 0, [(0, 1)]), (1, 1, [(0, 0)])] := by
    have h1 : actualWords [['a', '.']] = [['a', '.']] := by decide
    have h2 : actualWords [['b']] = [['b']] := by decide
    rw [schedule, scheduleAux, scheduleAux, scheduleAux, pageSchedule, pageSchedule,
      h1, h2]
    norm_num [List.range_succ]
  have hlen : ([['a', '.'], ['b']] : List (List Char)).length = 2 := rfl
  unfold pipeline
  rw [hlen, hrec, Option.map_some', hpages, htimings, hsched]

/-- Witness for C2 at a concrete two-page run, page 0, word 0. -/
theorem highlight_interval_formulas_witness :
    ((([(0, 0, [(0, 1)]), (1, 1, [(0, 0)])] :
          List (ℚ × ℚ × List (ℚ × ℚ))).getD 0 (0, 0, [])).2.2).length
        = (actualWords (([[['a', '.']], [['b']]] :
            List (List (List Char))).getD 0 [])).length
    ∧ (([(0, 0, [(0, 1)]), (1, 1, [(0, 0)])] :
          List (ℚ × ℚ × List (ℚ × ℚ))).getD 0 (0, 0, [])).1
        = ([0, 1] : List ℚ).getD (pageStartIdx [[['a', '.']], [['b']]] 0) 0
    ∧ ((([(0, 0, [(0, 1)]), (1, 1, [(0, 0)])] :
          List (ℚ × ℚ × List (ℚ × ℚ))).getD 0 (0, 0, [])).2.2).getD 0 (0, 0)
        = (([0, 1] : List ℚ).getD (pageStartIdx [[['a', '.']], [['b']]] 0 + 0) 0
              - ([0, 1] : List ℚ).getD (pageStartIdx [[['a', '.']], [['b']]] 0) 0,
            (if pageStartIdx [[['a', '.']], [['b']]] 0 + 0
                  < ([0, 1] : List ℚ).length - 1 then
              ([0, 1] : List ℚ).getD
                (pageStartIdx [[['a', '.']], [['b']]] 0 + 0 + 1) 0
            else (([(0, 0, [(0, 1)]), (1, 1, [(0, 0)])] :
                List (ℚ × ℚ × List (ℚ × ℚ))).getD 0 (0, 0, [])).2.1)
              - ([0, 1] : List ℚ).getD (pageStartIdx [[['a', '.']], [['b']]] 0) 0) := by
  obtain ⟨h1, h2, h3, h4⟩ :=
    highlight_interval_formulas 15 [['a', '.'], ['b']] [0, 1] 4
      [[['a', '.']], [['b']]] [0, 1] [(0, 0, [(0, 1)]), (1, 1, [(0, 0)])]
      (by decide) pipeline_two_pages_eval 0 (by decide)
  exact ⟨h1, h2, h3 0 (by decide)⟩

/-- C3 counterexample: on the run with tokens `a.`, `b` and onsets `0, 1`, the
first page has start time 0 and end time 0 (duration `0 - 0`), yet its last
word's relative highlight end is 1, the onset of the next page's first word:
the last word's window extends past the page's end time and does not equal the
page duration. -/
theorem last_relativeEnd_ne_duration_cex :
    pipeline 15 [['a', '.'], ['b']] [0, 1] 4
        = some ([[['a', '.']], [['b']]], [0, 1],
            [(0, 0, [(0, 1)]), (1, 1, [(0, 0)])])
      ∧ (([(0, 1)] : List (ℚ × ℚ)).getD 0 (0, 0)).2 = 1
      ∧ (0 : ℚ) - 0 = 0
      ∧ (0 : ℚ) < 1 := by
  refine ⟨pipeline_two_pages_eval, rfl, by norm_num, by norm_num⟩

/-- C3 amended: the last word's `relativeEnd` equals the page duration
(`endTime - startTime`) exactly for the final page; for any non-final page it
instead equals the onset of the next page's first word minus the page's start
time, which can exceed the page's end time. -/
theorem last_word_relativeEnd_cases (maxw : ℕ) (sylls : List (List Char))
    (onsets : List ℚ) (d : ℚ) (pages : List (List (List Char)))
    (timings : List ℚ) (sched : List (ℚ × ℚ × List (ℚ × ℚ)))
    (hn : ∀ x ∈ sylls, ('\n') ∉ x)
    (hp : pipeline maxw sylls onsets d = some (pages, timings, sched))
    (j : ℕ) (hj : j < pages.length) :
    (j + 1 = pages.length →
      ((((sched.getD j (0, 0, [])).2.2).getD
          ((actualWords (pages.getD j [])).length - 1) (0, 0)).2
        = (sched.getD j (0, 0, [])).2.1 - (sched.getD j (0, 0, [])).1))
    ∧ (j + 1 < pages.length →
      ((((sched.getD j (0, 0, [])).2.2).getD
          ((actualWords (pages.getD j [])).length - 1) (0, 0)).2
        = timings.getD (pageStartIdx pages (j + 1)) 0
            - (sched.getD j (0, 0, [])).1)) := by
  obtain ⟨ons0, hrec, hpg, htm, hsc⟩ :=
    pipeline_inv maxw sylls onsets d pages timings sched hp
  subst hpg
  subst htm
  subst hsc
  have hsum := timings_length_eq_sum maxw ons0 sylls hn
  have hpos := makePages_word_count_pos maxw ons0 sylls hn
  have hnj : 1 ≤ (actualWords ((makePages maxw ons0 sylls).getD j [])).length := by
    refine hpos _ ?_
    rw [List.getD_eq_getElem?_getD, List.getElem?_eq_getElem hj]
    exact List.getElem_mem _
  have hsucc := pageStartIdx_succ (makePages maxw ons0 sylls) j hj
  have hle : pageStartIdx (makePages maxw ons0 sylls) (j + 1)
      ≤ (wordTimings maxw ons0 sylls).length := by
    rw [← hsum]
    exact pageStartIdx_le _ _
  have hle' : pageStartIdx (makePages maxw ons0 sylls) j
        + (actualWords ((makePages maxw ons0 sylls).getD j [])).length
      ≤ (wordTimings maxw ons0 sylls).length := by
    rw [← hsucc]
    exact hle
  have hsj := schedule_getD (wordTimings maxw ons0 sylls) (makePages maxw ons0 sylls) j hj
  have hk : (actualWords ((makePages maxw ons0 sylls).getD j [])).length - 1
      < (actualWords ((makePages maxw ons0 sylls).getD j [])).length := by omega
  rw [hsj, pageSchedule_ivs _ _ _ hle', getD_map_range _ (0, 0) _ _ hk,
    pageSchedule_fst]
  constructor
  · intro hlast
    have hfull : pageStartIdx (makePages maxw ons0 sylls) (j + 1)
        = (wordTimings maxw ons0 sylls).length := by
      rw [hlast, pageStartIdx, List.take_length, hsum]
    have hcond : ¬ (pageStartIdx (makePages maxw ons0 sylls) j
          + ((actualWords ((makePages maxw ons0 sylls).getD j [])).length - 1)
        < (wordTimings maxw ons0 sylls).length - 1) := by
      omega
    rw [if_neg hcond]
  · intro hlt
    have hnj1 : 1 ≤ (actualWords ((makePages maxw ons0 sylls).getD (j + 1) [])).length := by
      refine hpos _ ?_
      rw [List.getD_eq_getElem?_getD, List.getElem?_eq_getElem hlt]
      exact List.getElem_mem _
    have hle2 : pageStartIdx (makePages maxw ons0 sylls) (j + 1)
          + (actualWords ((makePages maxw ons0 sylls).getD (j + 1) [])).length
        ≤ (wordTimings maxw ons0 sylls).length := by
      rw [← pageStartIdx_succ _ (j + 1) hlt, ← hsum]
      exact pageStartIdx_le _ _
    have hcond : pageStartIdx (makePages maxw ons0 sylls) j
          + ((actualWords ((makePages maxw ons0 sylls).getD j [])).length - 1)
        < (wordTimings maxw ons0 sylls).length - 1 := by
      omega
    rw [if_pos hcond]
    have harith : pageStartIdx (makePages maxw ons0 sylls) j
          + ((actualWords ((makePages maxw ons0 sylls).getD j [])).length - 1) + 1
        = pageStartIdx (makePages maxw ons0 sylls) (j + 1) := by
      omega
    rw [harith]

/-- Witness for C3 (amended) at the concrete two-page run, page 0 (a non-final
page: its last word's relative end is the next page's first onset). -/
theorem last_word_relativeEnd_cases_witness :
    (((([(0, 0, [(0, 1)]), (1, 1, [(0, 0)])] :
        List (ℚ × ℚ × List (ℚ × ℚ))).getD 0 (0, 0, [])).2.2).getD
          ((actualWords (([[['a', '.']], [['b']]] :
            List (List (List Char))).getD 0 [])).length - 1) (0, 0)).2
      = ([0, 1] : List ℚ).getD (pageStartIdx [[['a', '.']], [['b']]] (0 + 1)) 0
        - (([(0, 0, [(0, 1)]), (1, 1, [(0, 0)])] :
            List (ℚ × ℚ × List (ℚ × ℚ))).getD 0 (0, 0, [])).1 :=
  (last_word_relativeEnd_cases 15 [['a', '.'], ['b']] [0, 1] 4
    [[['a', '.']], [['b']]] [0, 1] [(0, 0, [(0, 1)]), (1, 1, [(0, 0)])]
    (by decide) pipeline_two_pages_eval 0 (by decide)).2 (by decide)
